/-
Verification of the adversarial word-guessing engine in src/src/Game.tsx
(hello-wordl variant).  The guess/feedback state machine, the consistency
checker `guessesAreValidFor`, the scorer `scoreClues` and the adversarial
selector `findNewWorstTarget` are translated from the source.  The clue
engine (src/clue) and the uniform pick (src/util) are not part of the
given sources, so they are modelled from the specification; randomness is
made explicit as a natural-number index threaded through every step.
-/
import Mathlib

/-- A word is a finite sequence of characters (a JS string). -/
abbrev Word := List Char

/-- Modelled from the spec: per-letter feedback outcome, with total order
Correct > Elsewhere > Absent (the enum in src/clue, not under src/). -/
inductive Clue where
  | Absent
  | Elsewhere
  | Correct
deriving DecidableEq, Repr

/-- Modelled from the spec: a letter together with its feedback (the
CluedLetter record in src/clue, not under src/). -/
structure CluedLetter where
  clue : Clue
  letter : Char
deriving DecidableEq, Repr

/-- Second pass of the clue algorithm: walk the (guess, target) position
pairs left to right; an exact match is Correct, otherwise the guess letter
is Elsewhere when an unconsumed target letter remains available (consuming
it) and Absent otherwise. -/
def cluePass2 : List (Char × Char) → List Char → List CluedLetter
  | [], _ => []
  | (g, t) :: rest, avail =>
    if g = t then ⟨Clue.Correct, g⟩ :: cluePass2 rest avail
    else if g ∈ avail then ⟨Clue.Elsewhere, g⟩ :: cluePass2 rest (avail.erase g)
    else ⟨Clue.Absent, g⟩ :: cluePass2 rest avail

/-- Modelled from the spec: the duplicate-aware two-pass clue engine of
src/clue (not under src/).  Pass 1 marks exact positional matches Correct
and builds the multiset of target letters not exactly matched; pass 2
resolves the remaining positions to Elsewhere or Absent. -/
def clue (guess target : Word) : List CluedLetter :=
  let pairs := List.zip guess target
  let avail := pairs.filterMap fun p => if p.1 = p.2 then none else some p.2
  cluePass2 pairs avail

/-- Elementwise comparison of two clue rows on the Clue component, as the
source's newClues.every over indices into oldClues: a missing old entry
(index out of range) can never compare equal. -/
def cluesMatch : List CluedLetter → List CluedLetter → Bool
  | [], _ => true
  | _ :: _, [] => false
  | n :: ns, o :: os => n.clue = o.clue && cluesMatch ns os

/-- guessesAreValidFor from Game.tsx: every committed guess must produce
the same clue row against the candidate as against the old target. -/
def guessesAreValidFor (guesses : List Word) (newTarget oldTarget : Word) : Bool :=
  guesses.all fun g => cluesMatch (clue g newTarget) (clue g oldTarget)

/-- scoreClues from Game.tsx: fold the history, adding greenRank = 1 per
Correct letter and yellowRank = 0.5 per Elsewhere letter.  JS numbers on
these values are exact, so rationals embed them faithfully. -/
def scoreClues (guesses : List Word) (tar : Word) : ℚ :=
  guesses.foldl
    (fun scoreTotal guess =>
      (clue guess tar).foldl
        (fun s l =>
          if l.clue = Clue.Correct then s + 1
          else if l.clue = Clue.Elsewhere then s + 0.5
          else s)
        scoreTotal)
    0

/-- Modelled from the spec: pick from src/util (not under src/), the
uniform random choice.  The single random draw is made explicit as an
index; picking from an empty list is undefined in the source (JS yields
undefined), embedded as none. -/
def pick (l : List Word) (r : Nat) : Option Word := l[r % l.length]?

/-- Math.min over a spread list of scores.  With no arguments Math.min is
positive infinity and nothing compares equal to it; that case is embedded
as none. -/
def listMin? : List ℚ → Option ℚ
  | [] => none
  | x :: xs =>
    some (match listMin? xs with
      | none => x
      | some m => min x m)

/-- The allValidTargets constant of findNewWorstTarget: the pool filtered
to candidates consistent with the whole history against the old target. -/
def allValidTargets (pool : List Word) (target : Word) (guesses : List Word) :
    List Word :=
  pool.filter fun tar => guessesAreValidFor guesses tar target

/-- The mapped constant of findNewWorstTarget: each valid candidate paired
with its informativeness score. -/
def mapped (pool : List Word) (target : Word) (guesses : List Word) :
    List (Word × ℚ) :=
  (allValidTargets pool target guesses).map fun t => (t, scoreClues guesses t)

/-- The scores constant of findNewWorstTarget. -/
def scores (pool : List Word) (target : Word) (guesses : List Word) : List ℚ :=
  (mapped pool target guesses).map fun m => m.2

/-- The leastHelpful constant of findNewWorstTarget: the minimum-score
candidates (empty when there is no score to take a minimum of). -/
def leastHelpful (pool : List Word) (target : Word) (guesses : List Word) :
    List Word :=
  match listMin? (scores pool target guesses) with
  | none => []
  | some minScore =>
    ((mapped pool target guesses).filter fun tar => decide (tar.2 = minScore)).map
      fun tar => tar.1

/-- findNewWorstTarget from Game.tsx: filter the pool to clue-consistent
candidates, score them, keep the minimum-score ones and pick uniformly.
The result is none exactly when the source would store an undefined
target (pick of the empty list). -/
def findNewWorstTarget (pool : List Word) (target : Word) (guesses : List Word)
    (r : Nat) : Option (Word × List Word) :=
  match pick (leastHelpful pool target guesses) r with
  | some newTarget => some (newTarget, leastHelpful pool target guesses)
  | none => none

/-- GameState from Game.tsx. -/
inductive GameState where
  | Playing
  | Won
  | Lost
deriving DecidableEq, Repr

/-- The hint strings of Game.tsx as an abstract datatype; lostRevealing
and gaveUpRevealing carry the word whose uppercase form the string
interpolates. -/
inductive Hint where
  | makeFirstGuess
  | empty
  | tooShort
  | notValid
  | won
  | lostRevealing (w : Word)
  | gaveUpRevealing (w : Word)
  | lengthIs (n : Nat)
deriving DecidableEq, Repr

/-- The React state of the Game component: the session.  targets is the
candidate pool state variable. -/
structure Session where
  gameState : GameState
  guesses : List Word
  currentGuess : Word
  wordLength : Nat
  hint : Hint
  targets : List Word
  target : Word
deriving DecidableEq, Repr

/-- The external word lists and the maxGuesses prop: dictionary.json, the
frequency list common.json, the proper-name denylist, and props. -/
structure Env where
  dict : List Word
  common : List Word
  names : List Word
  maxGuesses : Nat

/-- The module-level targets constant: the first 20000 common words that
are in the dictionary and not proper names. -/
def targetList (env : Env) : List Word :=
  (env.common.take 20000).filter fun w =>
    decide (w ∈ env.dict) && !decide (w ∈ env.names)

/-- allTargets from Game.tsx: the full candidate list for a word length. -/
def allTargets (env : Env) (wordLength : Nat) : List Word :=
  (targetList env).filter fun w => decide (w.length = wordLength)

/-- The selector effect's state writes: setTarget(newTarget) and
setTargets(leastHelpful) on a successful reselection; on the undefined
result the source stores targets = [] and an undefined target, which the
embedding keeps as the previous target. -/
def applySelector (s : Session) : Option (Word × List Word) → Session
  | some (nt, np) => { s with target := nt, targets := np }
  | none => { s with targets := [] }

/-- The commit branch of onKey's Enter handling: append the guess, clear
the input, set the win/lose outcome from the pre-commit state, then run
the useEffect keyed on guesses, which reselects target and pool via
findNewWorstTarget (it runs even when the commit won or lost the game). -/
def commitStep (env : Env) (s : Session) (r2 : Nat) : Session :=
  applySelector
    { s with
      guesses := s.guesses ++ [s.currentGuess]
      currentGuess := []
      gameState :=
        if s.currentGuess = s.target then GameState.Won
        else if s.guesses.length + 1 = env.maxGuesses then GameState.Lost
        else GameState.Playing
      hint :=
        if s.currentGuess = s.target then Hint.won
        else if s.guesses.length + 1 = env.maxGuesses then Hint.lostRevealing s.target
        else Hint.empty }
    (findNewWorstTarget s.targets s.target (s.guesses ++ [s.currentGuess]) r2)

/-- reset from Game.tsx, followed by the useEffect keyed on guesses (the
cleared guesses array is a fresh reference, so the effect fires and
reselects from the unchanged pool with an empty history). -/
def resetStep (s : Session) (r1 r2 : Nat) : Session :=
  applySelector
    { s with
      target := (pick s.targets r1).getD s.target
      guesses := []
      currentGuess := []
      hint := Hint.empty
      gameState := GameState.Playing }
    (findNewWorstTarget s.targets ((pick s.targets r1).getD s.target) [] r2)

/-- Abstract key tokens fed to onKey. -/
inductive Key where
  | letter (c : Char)
  | backspace
  | enter
  | other
deriving DecidableEq, Repr

/-- Events of the component: key input, the give-up button, and the
word-length slider. -/
inductive Event where
  | key (k : Key)
  | giveUp
  | setLen (n : Nat)
deriving DecidableEq, Repr

/-- One event-processing step of the Game component, including the
reselection effect where the guess history changes.  The give-up button
is disabled outside Playing or with no locked guesses; the length slider
is disabled whenever a guess is locked or input is in progress. -/
def step (env : Env) (s : Session) (e : Event) (r1 r2 : Nat) : Session :=
  match e with
  | Event.key k =>
    if s.gameState ≠ GameState.Playing then
      match k with
      | Key.enter => resetStep s r1 r2
      | _ => s
    else if s.guesses.length = env.maxGuesses then s
    else
      match k with
      | Key.letter c =>
        if 'a' ≤ c ∧ c ≤ 'z' then
          { s with currentGuess := (s.currentGuess ++ [c]).take s.wordLength
                   hint := Hint.empty }
        else s
      | Key.backspace =>
        { s with currentGuess := s.currentGuess.dropLast, hint := Hint.empty }
      | Key.enter =>
        if s.currentGuess.length ≠ s.wordLength then { s with hint := Hint.tooShort }
        else if s.currentGuess ∉ env.dict then { s with hint := Hint.notValid }
        else commitStep env s r2
      | Key.other => s
  | Event.giveUp =>
    if s.gameState ≠ GameState.Playing ∨ s.guesses.length = 0 then s
    else { s with hint := Hint.gaveUpRevealing s.target, gameState := GameState.Lost }
  | Event.setLen n =>
    if s.guesses.length > 0 ∨ s.currentGuess ≠ [] then s
    else
      let newTargets := allTargets env n
      { s with targets := newTargets
               target := (pick newTargets r1).getD s.target
               wordLength := n
               hint := Hint.lengthIs n }

/-- The initial session at mount (wordLength 5), including the mount run
of the reselection effect. -/
def initSession (env : Env) (r1 r2 : Nat) : Session :=
  applySelector
    { gameState := GameState.Playing
      guesses := []
      currentGuess := []
      wordLength := 5
      hint := Hint.makeFirstGuess
      targets := allTargets env 5
      target := (pick (allTargets env 5) r1).getD [] }
    (findNewWorstTarget (allTargets env 5) ((pick (allTargets env 5) r1).getD []) [] r2)

/-- Sessions reachable from mount by event processing. -/
inductive Reachable (env : Env) : Session → Prop where
  | init : ∀ r1 r2, Reachable env (initSession env r1 r2)
  | next : ∀ s e r1 r2, Reachable env s → Reachable env (step env s e r1 r2)

/-- Run a list of events, each with its two random draws. -/
def runSteps (env : Env) (s : Session) : List (Event × Nat × Nat) → Session
  | [] => s
  | (e, r1, r2) :: rest => runSteps env (step env s e r1 r2) rest

/-! ### Clue engine lemmas -/

theorem cluePass2_length (pairs : List (Char × Char)) :
    ∀ avail, (cluePass2 pairs avail).length = pairs.length := by
  induction pairs with
  | nil => intro avail; rfl
  | cons p rest ih =>
    intro avail
    obtain ⟨g, t⟩ := p
    by_cases hgt : g = t
    · simp [cluePass2, hgt, ih]
    · by_cases hmem : g ∈ avail
      · simp [cluePass2, hgt, hmem, ih]
      · simp [cluePass2, hgt, hmem, ih]

theorem clue_length (guess target : Word) :
    (clue guess target).length = min guess.length target.length := by
  simp [clue, cluePass2_length]

theorem cluesMatch_refl (a : List CluedLetter) : cluesMatch a a = true := by
  induction a with
  | nil => rfl
  | cons x xs ih => simp [cluesMatch, ih]

theorem cluesMatch_iff_map_eq (a : List CluedLetter) :
    ∀ b : List CluedLetter, a.length = b.length →
      (cluesMatch a b = true ↔ a.map CluedLetter.clue = b.map CluedLetter.clue) := by
  induction a with
  | nil =>
    intro b hb
    cases b with
    | nil => simp [cluesMatch]
    | cons y ys => simp at hb
  | cons x xs ih =>
    intro b hb
    cases b with
    | nil => simp at hb
    | cons y ys =>
      simp only [List.length_cons, Nat.succ.injEq] at hb
      simp [cluesMatch, List.map_cons, ih ys hb, and_comm]

theorem zip_self_filterMap_eq_nil (w : Word) :
    (List.zip w w).filterMap (fun p => if p.1 = p.2 then none else some p.2) = [] := by
  induction w with
  | nil => rfl
  | cons c cs ih => simp [List.zip, ih]

theorem cluePass2_zip_self (w : Word) (avail : List Char) :
    cluePass2 (List.zip w w) avail = w.map fun c => ⟨Clue.Correct, c⟩ := by
  induction w generalizing avail with
  | nil => rfl
  | cons c cs ih =>
    show cluePass2 ((c, c) :: List.zip cs cs) avail = _
    rw [show cluePass2 ((c, c) :: List.zip cs cs) avail
        = ⟨Clue.Correct, c⟩ :: cluePass2 (List.zip cs cs) avail from by
      simp [cluePass2]]
    rw [List.map_cons, ih avail]

theorem clue_self (w : Word) :
    clue w w = w.map fun c => ⟨Clue.Correct, c⟩ := by
  simp [clue, cluePass2_zip_self]

theorem cluePass2_all_correct {pairs : List (Char × Char)} :
    ∀ avail : List Char,
      (cluePass2 pairs avail).map CluedLetter.clue =
        List.replicate pairs.length Clue.Correct →
      ∀ p ∈ pairs, p.1 = p.2 := by
  induction pairs with
  | nil => intro avail h p hp; simp at hp
  | cons q rest ih =>
    intro avail h p hp
    obtain ⟨g, t⟩ := q
    by_cases hgt : g = t
    · rw [List.mem_cons] at hp
      rcases hp with hpq | hpr
      · rw [hpq]; exact hgt
      · refine ih avail ?_ p hpr
        rw [show cluePass2 ((g, t) :: rest) avail
            = ⟨Clue.Correct, g⟩ :: cluePass2 rest avail from by simp [cluePass2, hgt],
          List.map_cons, List.length_cons, List.replicate_succ, List.cons.injEq] at h
        exact h.2
    · exfalso
      by_cases hmem : g ∈ avail
      · rw [show cluePass2 ((g, t) :: rest) avail
            = ⟨Clue.Elsewhere, g⟩ :: cluePass2 rest (avail.erase g) from by
            simp [cluePass2, hgt, hmem],
          List.length_cons, List.replicate_succ] at h
        simp at h
      · rw [show cluePass2 ((g, t) :: rest) avail
            = ⟨Clue.Absent, g⟩ :: cluePass2 rest avail from by simp [cluePass2, hgt, hmem],
          List.length_cons, List.replicate_succ] at h
        simp at h

theorem eq_of_zip_fst_eq_snd (g : Word) :
    ∀ t : Word, g.length = t.length → (∀ p ∈ List.zip g t, p.1 = p.2) → g = t := by
  induction g with
  | nil =>
    intro t ht _
    cases t with
    | nil => rfl
    | cons y ys => simp at ht
  | cons x xs ih =>
    intro t ht hall
    cases t with
    | nil => simp at ht
    | cons y ys =>
      simp only [List.length_cons, Nat.succ.injEq] at ht
      have hx : x = y := hall (x, y) (List.mem_cons_self _ _)
      have := ih ys ht fun p hp => hall p (List.mem_cons.mpr (Or.inr hp))
      rw [hx, this]

theorem clue_all_correct_eq {guess target : Word}
    (hlen : guess.length = target.length)
    (h : (clue guess target).map CluedLetter.clue =
      List.replicate guess.length Clue.Correct) :
    guess = target := by
  have hz : (List.zip guess target).length = guess.length := by
    rw [List.length_zip, hlen, Nat.min_self]
  apply eq_of_zip_fst_eq_snd guess target hlen
  apply cluePass2_all_correct
    ((List.zip guess target).filterMap fun p => if p.1 = p.2 then none else some p.2)
  rw [hz]
  exact h

/-! ### Scorer lemmas -/

/-- The informativeness weight of one clue outcome. -/
def cluePoints : Clue → ℚ
  | Clue.Correct => 1
  | Clue.Elsewhere => 0.5
  | Clue.Absent => 0

theorem cluePoints_nonneg (c : Clue) : 0 ≤ cluePoints c := by
  cases c <;> norm_num [cluePoints]

theorem foldl_points (ls : List CluedLetter) :
    ∀ init : ℚ,
      ls.foldl
        (fun s l =>
          if l.clue = Clue.Correct then s + 1
          else if l.clue = Clue.Elsewhere then s + 0.5
          else s)
        init = init + (ls.map fun l => cluePoints l.clue).sum := by
  induction ls with
  | nil => intro init; simp
  | cons x xs ih =>
    intro init
    cases hx : x.clue <;>
      simp [List.foldl_cons, hx, ih, cluePoints, add_assoc]

theorem foldl_add_sum {α : Type} (w : α → ℚ) (gs : List α) :
    ∀ init : ℚ, gs.foldl (fun a g => a + w g) init = init + (gs.map w).sum := by
  induction gs with
  | nil => intro init; simp
  | cons g rest ih => intro init; simp [List.foldl_cons, ih, add_assoc]

theorem scoreClues_eq_sum (guesses : List Word) (tar : Word) :
    scoreClues guesses tar =
      (guesses.map fun g => ((clue g tar).map fun l => cluePoints l.clue).sum).sum := by
  unfold scoreClues
  simp only [foldl_points]
  simpa using foldl_add_sum (fun g => ((clue g tar).map fun l => cluePoints l.clue).sum)
    guesses 0

theorem scoreClues_nil (tar : Word) : scoreClues [] tar = 0 := rfl

theorem scoreClues_nonneg (guesses : List Word) (tar : Word) :
    0 ≤ scoreClues guesses tar := by
  rw [scoreClues_eq_sum]
  apply List.sum_nonneg
  intro x hx
  obtain ⟨g, _, rfl⟩ := List.mem_map.mp hx
  apply List.sum_nonneg
  intro y hy
  obtain ⟨l, _, rfl⟩ := List.mem_map.mp hy
  exact cluePoints_nonneg _

/-! ### Pick and minimum lemmas -/

theorem pick_mem {l : List Word} {r : Nat} {w : Word} (h : pick l r = some w) :
    w ∈ l := by
  unfold pick at h
  rcases List.getElem?_eq_some.mp h with ⟨hlt, hget⟩
  exact hget ▸ List.getElem_mem hlt

theorem pick_isSome {l : List Word} (hl : l ≠ []) (r : Nat) :
    ∃ w, pick l r = some w := by
  have hlen : 0 < l.length := List.length_pos.mpr hl
  have hlt : r % l.length < l.length := Nat.mod_lt _ hlen
  exact ⟨l[r % l.length], List.getElem?_eq_getElem hlt⟩

theorem pick_eq_none_iff {l : List Word} {r : Nat} :
    pick l r = none ↔ l = [] := by
  constructor
  · intro h
    by_contra hl
    obtain ⟨w, hw⟩ := pick_isSome hl r
    rw [hw] at h
    exact Option.noConfusion h
  · intro h; subst h; rfl

theorem listMin?_mem {l : List ℚ} : ∀ {m : ℚ}, listMin? l = some m → m ∈ l := by
  induction l with
  | nil => intro m h; exact Option.noConfusion h
  | cons x xs ih =>
    intro m h
    cases hxs : listMin? xs with
    | none =>
      have h' : listMin? (x :: xs) = some x := by unfold listMin?; rw [hxs]
      rw [h'] at h
      rw [← Option.some_inj.mp h]
      exact List.mem_cons_self _ _
    | some m' =>
      have h' : listMin? (x :: xs) = some (min x m') := by unfold listMin?; rw [hxs]
      rw [h'] at h
      have hm : min x m' = m := Option.some_inj.mp h
      rcases min_cases x m' with ⟨hmin, _⟩ | ⟨hmin, _⟩
      · rw [← hm, hmin]; exact List.mem_cons_self _ _
      · rw [← hm, hmin]; exact List.mem_cons.mpr (Or.inr (ih hxs))

theorem listMin?_isSome {l : List ℚ} (hl : l ≠ []) : ∃ m, listMin? l = some m := by
  cases l with
  | nil => exact absurd rfl hl
  | cons x xs => exact ⟨_, rfl⟩

/-! ### Selector lemmas -/

theorem guessesAreValidFor_self (gs : List Word) (t : Word) :
    guessesAreValidFor gs t t = true := by
  unfold guessesAreValidFor
  rw [List.all_eq_true]
  intro g _
  exact cluesMatch_refl _

theorem mem_allValidTargets {pool : List Word} {t0 x : Word} {gs : List Word} :
    x ∈ allValidTargets pool t0 gs ↔ x ∈ pool ∧ guessesAreValidFor gs x t0 = true :=
  List.mem_filter

theorem leastHelpful_subset_valid {pool : List Word} {t0 : Word} {gs : List Word} :
    ∀ x ∈ leastHelpful pool t0 gs, x ∈ allValidTargets pool t0 gs := by
  intro x hx
  cases hmin : listMin? (scores pool t0 gs) with
  | none =>
    have hx' : x ∈ ([] : List Word) := by
      unfold leastHelpful at hx; rw [hmin] at hx; exact hx
    simp at hx'
  | some m =>
    have hx' : x ∈ ((mapped pool t0 gs).filter fun tar => decide (tar.2 = m)).map
        fun tar => tar.1 := by
      unfold leastHelpful at hx; rw [hmin] at hx; exact hx
    obtain ⟨pair, hpair, hfst⟩ := List.mem_map.mp hx'
    have hpm : pair ∈ mapped pool t0 gs := List.mem_of_mem_filter hpair
    obtain ⟨v, hv, hveq⟩ := List.mem_map.mp hpm
    rw [← hfst, ← hveq]
    exact hv

theorem leastHelpful_length (pool : List Word) (t0 : Word) (gs : List Word) :
    (leastHelpful pool t0 gs).length ≤ pool.length := by
  cases hmin : listMin? (scores pool t0 gs) with
  | none =>
    have h : leastHelpful pool t0 gs = [] := by unfold leastHelpful; rw [hmin]
    rw [h]; simp
  | some m =>
    have h : leastHelpful pool t0 gs
        = ((mapped pool t0 gs).filter fun tar => decide (tar.2 = m)).map
            fun tar => tar.1 := by
      unfold leastHelpful; rw [hmin]
    rw [h, List.length_map]
    have h1 : ((mapped pool t0 gs).filter fun tar => decide (tar.2 = m)).length
        ≤ (mapped pool t0 gs).length := List.length_filter_le _ _
    have h2 : (mapped pool t0 gs).length = (allValidTargets pool t0 gs).length := by
      unfold mapped; exact List.length_map _ _
    have h3 : (allValidTargets pool t0 gs).length ≤ pool.length :=
      List.length_filter_le _ _
    omega

theorem leastHelpful_ne_nil {pool : List Word} {t0 : Word} {gs : List Word}
    (ht : t0 ∈ pool) : leastHelpful pool t0 gs ≠ [] := by
  have hv : t0 ∈ allValidTargets pool t0 gs :=
    mem_allValidTargets.mpr ⟨ht, guessesAreValidFor_self gs t0⟩
  have hm : (t0, scoreClues gs t0) ∈ mapped pool t0 gs := by
    unfold mapped; exact List.mem_map.mpr ⟨t0, hv, rfl⟩
  have hs : scoreClues gs t0 ∈ scores pool t0 gs := by
    unfold scores; exact List.mem_map.mpr ⟨_, hm, rfl⟩
  obtain ⟨m, hmin⟩ := listMin?_isSome (List.ne_nil_of_mem hs)
  obtain ⟨pair, hpair, hpe⟩ := List.mem_map.mp (show m ∈ (mapped pool t0 gs).map
    (fun x => x.2) from listMin?_mem hmin)
  have hfil : pair ∈ (mapped pool t0 gs).filter fun tar => decide (tar.2 = m) :=
    List.mem_filter.mpr ⟨hpair, by simp [hpe]⟩
  have hLH : leastHelpful pool t0 gs
      = ((mapped pool t0 gs).filter fun tar => decide (tar.2 = m)).map
          fun tar => tar.1 := by
    unfold leastHelpful; rw [hmin]
  rw [hLH]
  exact List.ne_nil_of_mem (List.mem_map.mpr ⟨pair, hfil, rfl⟩)

theorem findNewWorstTarget_some {pool : List Word} {t0 : Word} {gs : List Word}
    {r : Nat} {nt : Word} {np : List Word}
    (h : findNewWorstTarget pool t0 gs r = some (nt, np)) :
    nt ∈ np ∧ np = leastHelpful pool t0 gs := by
  cases hp : pick (leastHelpful pool t0 gs) r with
  | none =>
    have h' : (none : Option (Word × List Word)) = some (nt, np) := by
      unfold findNewWorstTarget at h; rw [hp] at h; exact h
    exact Option.noConfusion h'
  | some w =>
    have h' : some (w, leastHelpful pool t0 gs) = some (nt, np) := by
      unfold findNewWorstTarget at h; rw [hp] at h; exact h
    obtain ⟨h1, h2⟩ := Prod.mk.injEq .. ▸ Option.some_inj.mp h'
    subst h1 h2
    exact ⟨pick_mem hp, rfl⟩

theorem findNewWorstTarget_isSome {pool : List Word} {t0 : Word} {gs : List Word}
    (ht : t0 ∈ pool) (r : Nat) :
    ∃ nt np, findNewWorstTarget pool t0 gs r = some (nt, np) := by
  obtain ⟨w, hw⟩ := pick_isSome (leastHelpful_ne_nil ht) r
  exact ⟨w, leastHelpful pool t0 gs, by unfold findNewWorstTarget; rw [hw]⟩

theorem listMin?_const {x : ℚ} : ∀ {l : List ℚ},
    (∀ y ∈ l, y = x) → l ≠ [] → listMin? l = some x := by
  intro l
  induction l with
  | nil => intro _ h; exact absurd rfl h
  | cons a xs ih =>
    intro hall _
    have ha : a = x := hall a (List.mem_cons_self _ _)
    cases xs with
    | nil => exact congrArg some ha
    | cons b ys =>
      have hxs : listMin? (b :: ys) = some x :=
        ih (fun y hy => hall y (List.mem_cons.mpr (Or.inr hy))) (by simp)
      have h2 : listMin? (a :: b :: ys) = some (min a x) := by
        unfold listMin?; rw [hxs]
      rw [h2, ha, min_self]

theorem allValidTargets_nil_history (pool : List Word) (t0 : Word) :
    allValidTargets pool t0 [] = pool :=
  List.filter_eq_self.mpr fun _ _ => rfl

theorem map_fst_map_pair (f : Word → ℚ) (l : List Word) :
    ((l.map fun t => (t, f t)).map fun p => p.1) = l := by
  induction l with
  | nil => rfl
  | cons x xs ih => simp [ih]

theorem leastHelpful_nil_history (pool : List Word) (t0 : Word) :
    leastHelpful pool t0 [] = pool := by
  by_cases hpool : pool = []
  · subst hpool; rfl
  · have hall : ∀ y ∈ scores pool t0 [], y = 0 := by
      intro y hy
      unfold scores at hy
      obtain ⟨pair, hp, he⟩ := List.mem_map.mp hy
      unfold mapped at hp
      obtain ⟨v, _, hve⟩ := List.mem_map.mp hp
      rw [← he, ← hve]
      rfl
    have hne : scores pool t0 [] ≠ [] := by
      unfold scores mapped
      rw [allValidTargets_nil_history]
      simp [hpool]
    have hmin : listMin? (scores pool t0 []) = some 0 := listMin?_const hall hne
    have hLH : leastHelpful pool t0 []
        = ((mapped pool t0 []).filter fun tar => decide (tar.2 = 0)).map
            fun tar => tar.1 := by
      unfold leastHelpful; rw [hmin]
    rw [hLH]
    have hfil : (mapped pool t0 []).filter (fun tar => decide (tar.2 = 0))
        = mapped pool t0 [] := by
      apply List.filter_eq_self.mpr
      intro pair hp
      unfold mapped at hp
      obtain ⟨v, _, hve⟩ := List.mem_map.mp hp
      rw [← hve]
      simp [scoreClues_nil]
    rw [hfil]
    unfold mapped
    rw [allValidTargets_nil_history, map_fst_map_pair]

theorem findNewWorstTarget_nil_history (pool : List Word) (t0 : Word) (r : Nat) :
    findNewWorstTarget pool t0 [] r = (pick pool r).map fun w => (w, pool) := by
  unfold findNewWorstTarget
  rw [leastHelpful_nil_history]
  cases hp : pick pool r with
  | none => rfl
  | some w => rfl

/-! ### Session invariant -/

theorem guessesAreValidFor_iff {gs : List Word} {t t0 : Word} :
    guessesAreValidFor gs t t0 = true ↔
      ∀ g ∈ gs, cluesMatch (clue g t) (clue g t0) = true := by
  unfold guessesAreValidFor
  exact List.all_eq_true

theorem clue_map_eq_of_valid {t t0 : Word} (hlen : t.length = t0.length)
    {gs : List Word} (hv : guessesAreValidFor gs t t0 = true) :
    ∀ g ∈ gs, (clue g t).map CluedLetter.clue = (clue g t0).map CluedLetter.clue := by
  intro g hg
  have hm := guessesAreValidFor_iff.mp hv g hg
  have hl : (clue g t).length = (clue g t0).length := by
    rw [clue_length, clue_length, hlen]
  exact (cluesMatch_iff_map_eq (clue g t) (clue g t0) hl).mp hm

theorem applySelector_some_eq (s : Session) (nt : Word) (np : List Word) :
    applySelector s (some (nt, np)) = { s with target := nt, targets := np } := rfl

theorem applySelector_none_eq (s : Session) :
    applySelector s none = { s with targets := [] } := rfl

/-- The session properties maintained by every event: every pool word has
the current word length, the target sits in the pool whenever the pool is
nonempty, and every pool word is clue-indistinguishable from the target on
every locked guess. -/
structure SessionInv (env : Env) (s : Session) : Prop where
  lenPool : ∀ t ∈ s.targets, t.length = s.wordLength
  targetMem : s.targets ≠ [] → s.target ∈ s.targets
  consistent : ∀ g ∈ s.guesses, ∀ t ∈ s.targets,
    (clue g t).map CluedLetter.clue = (clue g s.target).map CluedLetter.clue

theorem inv_transport {env : Env} {s : Session} (h : SessionInv env s) (s' : Session)
    (hg : s'.guesses = s.guesses) (ht : s'.targets = s.targets)
    (htg : s'.target = s.target) (hw : s'.wordLength = s.wordLength) :
    SessionInv env s' := by
  constructor
  · intro t htm; rw [hw]; exact h.lenPool t (ht ▸ htm)
  · intro hne; rw [htg, ht]; exact h.targetMem (ht ▸ hne)
  · intro g hg' t htm; rw [htg]; exact h.consistent g (hg ▸ hg') t (ht ▸ htm)

theorem allTargets_length {env : Env} {n : Nat} :
    ∀ w ∈ allTargets env n, w.length = n := by
  intro w hw
  unfold allTargets at hw
  exact of_decide_eq_true (List.mem_filter.mp hw).2

theorem inv_commitStep {env : Env} {s : Session} {r2 : Nat} (h : SessionInv env s) :
    SessionInv env (commitStep env s r2) := by
  unfold commitStep
  cases hf : findNewWorstTarget s.targets s.target (s.guesses ++ [s.currentGuess]) r2 with
  | none =>
    rw [applySelector_none_eq]
    constructor
    · intro t ht; simp at ht
    · intro hne; simp at hne
    · intro g hg t ht; simp at ht
  | some p =>
    obtain ⟨nt, np⟩ := p
    rw [applySelector_some_eq]
    obtain ⟨hmem, hnp⟩ := findNewWorstTarget_some hf
    have hsub : ∀ x ∈ np, x ∈ s.targets ∧
        guessesAreValidFor (s.guesses ++ [s.currentGuess]) x s.target = true := by
      intro x hx
      rw [hnp] at hx
      exact mem_allValidTargets.mp (leastHelpful_subset_valid x hx)
    constructor
    · intro t ht
      exact h.lenPool t (hsub t ht).1
    · intro _
      exact hmem
    · intro g hg t ht
      have ht' := hsub t ht
      have hnt' := hsub nt hmem
      have hpoolne : s.targets ≠ [] := List.ne_nil_of_mem ht'.1
      have holdmem := h.targetMem hpoolne
      have hlt : t.length = s.target.length := by
        rw [h.lenPool t ht'.1, h.lenPool _ holdmem]
      have hlnt : nt.length = s.target.length := by
        rw [h.lenPool nt hnt'.1, h.lenPool _ holdmem]
      have e1 := clue_map_eq_of_valid hlt ht'.2 g hg
      have e2 := clue_map_eq_of_valid hlnt hnt'.2 g hg
      rw [e1, ← e2]

theorem inv_resetStep {env : Env} {s : Session} {r1 r2 : Nat} (h : SessionInv env s) :
    SessionInv env (resetStep s r1 r2) := by
  unfold resetStep
  rw [findNewWorstTarget_nil_history]
  cases hp2 : pick s.targets r2 with
  | none =>
    rw [Option.map_none', applySelector_none_eq]
    constructor
    · intro t ht; simp at ht
    · intro hne; simp at hne
    · intro g hg; simp at hg
  | some w =>
    rw [Option.map_some', applySelector_some_eq]
    constructor
    · intro t ht; exact h.lenPool t ht
    · intro _; exact pick_mem hp2
    · intro g hg; simp at hg

theorem inv_initSession {env : Env} {r1 r2 : Nat} : SessionInv env (initSession env r1 r2) := by
  unfold initSession
  rw [findNewWorstTarget_nil_history]
  cases hp2 : pick (allTargets env 5) r2 with
  | none =>
    rw [Option.map_none', applySelector_none_eq]
    constructor
    · intro t ht; simp at ht
    · intro hne; simp at hne
    · intro g hg; simp at hg
  | some w =>
    rw [Option.map_some', applySelector_some_eq]
    constructor
    · intro t ht; exact allTargets_length t ht
    · intro _; exact pick_mem hp2
    · intro g hg; simp at hg

theorem step_key_enter (env : Env) (s : Session) (r1 r2 : Nat) :
    step env s (Event.key Key.enter) r1 r2 =
      if s.gameState ≠ GameState.Playing then resetStep s r1 r2
      else if s.guesses.length = env.maxGuesses then s
      else if s.currentGuess.length ≠ s.wordLength then { s with hint := Hint.tooShort }
      else if s.currentGuess ∉ env.dict then { s with hint := Hint.notValid }
      else commitStep env s r2 := rfl

theorem step_key_letter (env : Env) (s : Session) (c : Char) (r1 r2 : Nat) :
    step env s (Event.key (Key.letter c)) r1 r2 =
      if s.gameState ≠ GameState.Playing then s
      else if s.guesses.length = env.maxGuesses then s
      else if 'a' ≤ c ∧ c ≤ 'z' then
        { s with currentGuess := (s.currentGuess ++ [c]).take s.wordLength
                 hint := Hint.empty }
      else s := rfl

theorem step_key_backspace (env : Env) (s : Session) (r1 r2 : Nat) :
    step env s (Event.key Key.backspace) r1 r2 =
      if s.gameState ≠ GameState.Playing then s
      else if s.guesses.length = env.maxGuesses then s
      else { s with currentGuess := s.currentGuess.dropLast, hint := Hint.empty } := rfl

theorem step_key_other (env : Env) (s : Session) (r1 r2 : Nat) :
    step env s (Event.key Key.other) r1 r2 =
      if s.gameState ≠ GameState.Playing then s
      else if s.guesses.length = env.maxGuesses then s
      else s := rfl

theorem step_giveUp (env : Env) (s : Session) (r1 r2 : Nat) :
    step env s Event.giveUp r1 r2 =
      if s.gameState ≠ GameState.Playing ∨ s.guesses.length = 0 then s
      else { s with hint := Hint.gaveUpRevealing s.target, gameState := GameState.Lost } :=
  rfl

theorem step_setLen (env : Env) (s : Session) (n : Nat) (r1 r2 : Nat) :
    step env s (Event.setLen n) r1 r2 =
      if s.guesses.length > 0 ∨ s.currentGuess ≠ [] then s
      else
        { s with targets := allTargets env n
                 target := (pick (allTargets env n) r1).getD s.target
                 wordLength := n
                 hint := Hint.lengthIs n } := rfl

theorem inv_step {env : Env} {s : Session} (e : Event) (r1 r2 : Nat)
    (h : SessionInv env s) : SessionInv env (step env s e r1 r2) := by
  cases e with
  | key k =>
    cases k with
    | enter =>
      rw [step_key_enter]
      split
      · exact inv_resetStep h
      · split
        · exact h
        · split
          · exact inv_transport h _ rfl rfl rfl rfl
          · split
            · exact inv_transport h _ rfl rfl rfl rfl
            · exact inv_commitStep h
    | letter c =>
      rw [step_key_letter]
      split
      · exact h
      · split
        · exact h
        · split
          · exact inv_transport h _ rfl rfl rfl rfl
          · exact h
    | backspace =>
      rw [step_key_backspace]
      split
      · exact h
      · split
        · exact h
        · exact inv_transport h _ rfl rfl rfl rfl
    | other =>
      rw [step_key_other]
      split
      · exact h
      · split
        · exact h
        · exact h
  | giveUp =>
    rw [step_giveUp]
    split
    · exact h
    · exact inv_transport h _ rfl rfl rfl rfl
  | setLen n =>
    rw [step_setLen]
    split
    · exact h
    · next hguard =>
      constructor
      · intro t ht; exact allTargets_length t ht
      · intro hne
        obtain ⟨w, hw⟩ := pick_isSome hne r1
        rw [hw]
        exact pick_mem hw
      · intro g hg t ht
        have hempty : s.guesses = [] := by
          have h1 : ¬ s.guesses.length > 0 := fun hgt => hguard (Or.inl hgt)
          exact List.length_eq_zero.mp (by omega)
        rw [hempty] at hg
        simp at hg

theorem reachable_inv {env : Env} {s : Session} (h : Reachable env s) : SessionInv env s := by
  induction h with
  | init r1 r2 => exact inv_initSession
  | next s e r1 r2 _ ih => exact inv_step e r1 r2 ih

/-! ### Helper lemmas for the claim theorems -/

theorem applySelector_guesses (s : Session) (o : Option (Word × List Word)) :
    (applySelector s o).guesses = s.guesses := by
  cases o with
  | none => rfl
  | some p => obtain ⟨nt, np⟩ := p; rfl

theorem applySelector_gameState (s : Session) (o : Option (Word × List Word)) :
    (applySelector s o).gameState = s.gameState := by
  cases o with
  | none => rfl
  | some p => obtain ⟨nt, np⟩ := p; rfl

theorem applySelector_hint (s : Session) (o : Option (Word × List Word)) :
    (applySelector s o).hint = s.hint := by
  cases o with
  | none => rfl
  | some p => obtain ⟨nt, np⟩ := p; rfl

theorem applySelector_currentGuess (s : Session) (o : Option (Word × List Word)) :
    (applySelector s o).currentGuess = s.currentGuess := by
  cases o with
  | none => rfl
  | some p => obtain ⟨nt, np⟩ := p; rfl

theorem reachable_runSteps {env : Env} {s : Session} (h : Reachable env s) :
    ∀ l : List (Event × Nat × Nat), Reachable env (runSteps env s l) := by
  intro l
  induction l generalizing s with
  | nil => exact h
  | cons p rest ih =>
    obtain ⟨e, r1, r2⟩ := p
    exact ih (Reachable.next _ _ _ _ h)

theorem map_clue_const (w : Word) :
    (w.map fun c => (⟨Clue.Correct, c⟩ : CluedLetter)).map CluedLetter.clue
      = List.replicate w.length Clue.Correct := by
  induction w with
  | nil => rfl
  | cons c cs ih => simp only [List.map_cons, List.length_cons, List.replicate_succ, ih]

theorem clue_self_map (w : Word) :
    (clue w w).map CluedLetter.clue = List.replicate w.length Clue.Correct := by
  rw [clue_self]
  exact map_clue_const w

/-- A candidate that reproduces the all-Correct clue row of the winning
guess is the winning guess itself. -/
theorem win_valid_eq {cg x : Word} (hlx : x.length = cg.length)
    (hv : cluesMatch (clue cg x) (clue cg cg) = true) : x = cg := by
  have hlen : (clue cg x).length = (clue cg cg).length := by
    rw [clue_length, clue_length, hlx]
  have hmap := (cluesMatch_iff_map_eq _ _ hlen).mp hv
  rw [clue_self_map] at hmap
  exact (clue_all_correct_eq hlx.symm hmap).symm

/-! ### A concrete environment and concrete games

The core Rat operations are irreducible by default, which blocks kernel
evaluation of concrete games; restoring default reducibility lets decide
evaluate them. -/

attribute [local semireducible] Rat.add Rat.ofScientific Rat.mul Rat.inv Rat.sub

def wS : Word := "sssss".toList

def wT : Word := "ttttt".toList

def wU : Word := "uuuuu".toList

/-- Three five-letter candidate words, all in the dictionary, none a
proper name, with at most two guesses per game. -/
def exEnv : Env :=
  { dict := [wS, wT, wU], common := [wS, wT, wU], names := [], maxGuesses := 2 }

/-- Typing a word letter by letter. -/
def typeWord (w : Word) : List (Event × Nat × Nat) :=
  w.map fun c => (Event.key (Key.letter c), 0, 0)

def enterEv (r2 : Nat) : Event × Nat × Nat := (Event.key Key.enter, 0, r2)

/-- The mounted session: pool of all three words, target sssss. -/
def exStart : Session := initSession exEnv 0 0

/-- After committing the wrong guess ttttt: pool shrinks to sssss and
uuuuu (both clue-indistinguishable), target sssss. -/
def exAfter1 : Session := runSteps exEnv exStart (typeWord wT ++ [enterEv 0])

/-- After a second wrong ttttt with maxGuesses = 2: the game is lost, the
hint reveals sssss, and the post-loss reselection moves the target to
uuuuu. -/
def exLost : Session := runSteps exEnv exAfter1 (typeWord wT ++ [enterEv 1])

/-- The session right before the winning Enter on sssss. -/
def exPreWin : Session := runSteps exEnv exAfter1 (typeWord wS)

/-- After winning with sssss: the effect still reselects, collapsing the
pool to the target alone. -/
def exWon : Session := step exEnv exPreWin (Event.key Key.enter) 0 0

/-- Pressing Enter in the Lost phase: the pool stays the shrunken pool. -/
def exReset : Session := step exEnv exLost (Event.key Key.enter) 0 0

/-! ### Claim theorems -/

/-- Claim C8: for every candidate word and guess history, scoreClues
equals the sum over all guesses and positions of 1 per Correct, 0.5 per
Elsewhere and 0 per Absent clue. -/
theorem score_is_weighted_sum (guesses : List Word) (tar : Word) :
    scoreClues guesses tar =
      (guesses.map fun g => ((clue g tar).map fun l => cluePoints l.clue).sum).sum :=
  scoreClues_eq_sum guesses tar

/-- Claim C9: for fixed candidate, the score is monotone nondecreasing
under appending a guess to the history, and invariant under permuting the
history. -/
theorem score_monotone_and_perm_invariant :
    (∀ (tar : Word) (h : List Word) (g : Word),
      scoreClues h tar ≤ scoreClues (h ++ [g]) tar) ∧
    (∀ (tar : Word) (h h' : List Word), h.Perm h' →
      scoreClues h tar = scoreClues h' tar) := by
  constructor
  · intro tar h g
    rw [scoreClues_eq_sum, scoreClues_eq_sum, List.map_append, List.sum_append]
    have hge : 0 ≤ (([g].map fun g' =>
        ((clue g' tar).map fun l => cluePoints l.clue).sum).sum) := by
      apply List.sum_nonneg
      intro x hx
      obtain ⟨g', _, rfl⟩ := List.mem_map.mp hx
      apply List.sum_nonneg
      intro y hy
      obtain ⟨l, _, rfl⟩ := List.mem_map.mp hy
      exact cluePoints_nonneg _
    linarith
  · intro tar h h' hperm
    rw [scoreClues_eq_sum, scoreClues_eq_sum]
    exact List.Perm.sum_eq (hperm.map _)

/-- Witness for C9 at a concrete permuted history. -/
theorem score_monotone_and_perm_invariant_witness :
    scoreClues [wT, wS] wS = scoreClues [wS, wT] wS :=
  score_monotone_and_perm_invariant.2 wS [wT, wS] [wS, wT] (List.Perm.swap wS wT [])

/-- Claim C5: whenever the selector is called with the current target in
the pool it returns a result, and every returned result satisfies
newTarget ∈ newPool, newPool ⊆ pool and len(newPool) ≤ len(pool). -/
theorem selector_postconditions (pool : List Word) (t0 : Word) (gs : List Word)
    (r : Nat) :
    (t0 ∈ pool → ∃ nt np, findNewWorstTarget pool t0 gs r = some (nt, np)) ∧
    (∀ nt np, findNewWorstTarget pool t0 gs r = some (nt, np) →
      nt ∈ np ∧ (∀ x ∈ np, x ∈ pool) ∧ np.length ≤ pool.length) := by
  constructor
  · intro ht
    exact findNewWorstTarget_isSome ht r
  · intro nt np h
    obtain ⟨hmem, hnp⟩ := findNewWorstTarget_some h
    refine ⟨hmem, ?_, ?_⟩
    · intro x hx
      rw [hnp] at hx
      exact (mem_allValidTargets.mp (leastHelpful_subset_valid x hx)).1
    · rw [hnp]
      exact leastHelpful_length _ _ _

/-- Witness for C5 at a concrete pool and history. -/
theorem selector_postconditions_witness :
    (findNewWorstTarget [wS, wU] wS [wT] 0).isSome = true ∧
    (wS ∈ ([wS, wU] : List Word) ∧ (∀ x ∈ ([wS, wU] : List Word), x ∈ [wS, wU]) ∧
      ([wS, wU] : List Word).length ≤ ([wS, wU] : List Word).length) := by
  constructor
  · obtain ⟨nt, np, h⟩ := (selector_postconditions [wS, wU] wS [wT] 0).1 (by decide)
    rw [h]
    rfl
  · exact (selector_postconditions [wS, wU] wS [wT] 0).2 wS [wS, wU] (by decide)

/-- Claim C6 (the code lacks the guard the spec requires): on an empty
pool, or a nonempty pool whose valid subset is empty, the selector
propagates the undefined result (pick of the empty minimum set) instead
of refusing or falling back to the full candidate list. -/
theorem selector_empty_pool_propagates :
    (∀ (t0 : Word) (gs : List Word) (r : Nat),
      findNewWorstTarget [] t0 gs r = none) ∧
    findNewWorstTarget [wU] wS [wS] 0 = none := by
  constructor
  · intro t0 gs r
    rfl
  · decide

/-- Claim C7: a rejected Enter (input too short, or full-length but not in
the dictionary) only sets the corresponding hint and leaves every other
session component unchanged. -/
theorem rejected_enter_nonmutating (env : Env) (s : Session) (r1 r2 : Nat)
    (hp : s.gameState = GameState.Playing)
    (hm : s.guesses.length ≠ env.maxGuesses) :
    (s.currentGuess.length ≠ s.wordLength →
      step env s (Event.key Key.enter) r1 r2 = { s with hint := Hint.tooShort }) ∧
    (s.currentGuess.length = s.wordLength → s.currentGuess ∉ env.dict →
      step env s (Event.key Key.enter) r1 r2 = { s with hint := Hint.notValid }) := by
  rw [step_key_enter]
  constructor
  · intro hlen
    rw [if_neg (not_ne_iff.mpr hp), if_neg hm, if_pos hlen]
  · intro hlen hdict
    rw [if_neg (not_ne_iff.mpr hp), if_neg hm, if_neg (not_ne_iff.mpr hlen),
      if_pos hdict]

/-- A Playing session with a two-letter input. -/
def sTooShort : Session :=
  { gameState := GameState.Playing, guesses := [], currentGuess := "ss".toList,
    wordLength := 5, hint := Hint.empty, targets := [wS], target := wS }

/-- A Playing session with a full-length input that is not a dictionary
word. -/
def sNotWord : Session :=
  { gameState := GameState.Playing, guesses := [], currentGuess := "xxxxx".toList,
    wordLength := 5, hint := Hint.empty, targets := [wS], target := wS }

/-- Witness for C7 at the two concrete rejected inputs. -/
theorem rejected_enter_nonmutating_witness :
    step exEnv sTooShort (Event.key Key.enter) 0 0
      = { sTooShort with hint := Hint.tooShort } ∧
    step exEnv sNotWord (Event.key Key.enter) 0 0
      = { sNotWord with hint := Hint.notValid } :=
  ⟨(rejected_enter_nonmutating exEnv sTooShort 0 0 rfl (by decide)).1 (by decide),
   (rejected_enter_nonmutating exEnv sNotWord 0 0 rfl (by decide)).2 (by decide)
     (by decide)⟩

/-- Claim C10: the word-length control never touches guesses or input,
and it can change the word length only from a session with no locked
guesses and no in-progress input. -/
theorem length_change_requires_empty (env : Env) (s : Session) (n : Nat)
    (r1 r2 : Nat) :
    (step env s (Event.setLen n) r1 r2).guesses = s.guesses ∧
    (step env s (Event.setLen n) r1 r2).currentGuess = s.currentGuess ∧
    ((step env s (Event.setLen n) r1 r2).wordLength ≠ s.wordLength →
      s.guesses = [] ∧ s.currentGuess = []) := by
  rw [step_setLen]
  split
  · exact ⟨rfl, rfl, fun h => absurd rfl h⟩
  · next hguard =>
    refine ⟨rfl, rfl, fun _ => ⟨?_, ?_⟩⟩
    · have h1 : ¬ s.guesses.length > 0 := fun hgt => hguard (Or.inl hgt)
      exact List.length_eq_zero.mp (by omega)
    · by_contra hne
      exact hguard (Or.inr hne)

/-- Witness for C10: changing the length from 5 to 4 on the fresh mounted
session, which indeed has no guesses and no input. -/
theorem length_change_requires_empty_witness :
    exStart.guesses = [] ∧ exStart.currentGuess = [] :=
  (length_change_requires_empty exEnv exStart 4 0 0).2.2 (by decide)

/-- Claim C1: in every reachable session, every locked guess produces the
same clue row (on the Clue component) against every pool word as against
the current target; in particular every reselected target reproduces all
clue rows already shown. -/
theorem pool_consistency (env : Env) (s : Session) (h : Reachable env s) :
    ∀ g ∈ s.guesses, ∀ t ∈ s.targets,
      (clue g t).map CluedLetter.clue = (clue g s.target).map CluedLetter.clue :=
  (reachable_inv h).consistent

/-- Witness for C1: after the committed guess ttttt in the concrete game,
the surviving pool word uuuuu yields the same clue row as the target. -/
theorem pool_consistency_witness :
    (clue wT wU).map CluedLetter.clue = (clue wT exAfter1.target).map CluedLetter.clue :=
  pool_consistency exEnv exAfter1
    (reachable_runSteps (Reachable.init 0 0) (typeWord wT ++ [enterEv 0]))
    wT (by decide) wU (by decide)

/-- Counterexample to claim C2 as stated: after losing the concrete game
the pool has shrunk to two of the three full-list words; pressing Enter
resets to Playing but the new pool still misses the full-list word ttttt,
so target and pool are not drawn from the full candidate list. -/
theorem reset_keeps_pool_counterexample :
    exLost.gameState = GameState.Lost ∧
    exReset.gameState = GameState.Playing ∧
    exReset.guesses = [] ∧
    wT ∈ allTargets exEnv exReset.wordLength ∧
    wT ∉ exReset.targets := by decide

/-- Claim C2 as amended: Enter in a non-Playing phase clears guesses,
input and hint and returns to Playing, but the pool is left unchanged
(the shrunken pool, not the full candidate list) and the new target is
picked from that unchanged pool. -/
theorem reset_behavior (env : Env) (s : Session) (r1 r2 : Nat)
    (hp : s.gameState ≠ GameState.Playing) :
    (step env s (Event.key Key.enter) r1 r2).gameState = GameState.Playing ∧
    (step env s (Event.key Key.enter) r1 r2).guesses = [] ∧
    (step env s (Event.key Key.enter) r1 r2).currentGuess = [] ∧
    (step env s (Event.key Key.enter) r1 r2).hint = Hint.empty ∧
    (step env s (Event.key Key.enter) r1 r2).targets = s.targets ∧
    (s.targets ≠ [] → (step env s (Event.key Key.enter) r1 r2).target ∈ s.targets) := by
  rw [step_key_enter, if_pos hp]
  unfold resetStep
  rw [findNewWorstTarget_nil_history]
  cases hp2 : pick s.targets r2 with
  | none =>
    rw [Option.map_none', applySelector_none_eq]
    have hnil : s.targets = [] := pick_eq_none_iff.mp hp2
    refine ⟨rfl, rfl, rfl, rfl, ?_, ?_⟩
    · rw [hnil]
    · intro hne
      exact absurd hnil hne
  | some w =>
    rw [Option.map_some', applySelector_some_eq]
    exact ⟨rfl, rfl, rfl, rfl, rfl, fun _ => pick_mem hp2⟩

/-- Witness for C2's amended theorem at the concrete lost game. -/
theorem reset_behavior_witness :
    exReset.gameState = GameState.Playing ∧ exReset.guesses = [] ∧
    exReset.currentGuess = [] ∧ exReset.hint = Hint.empty ∧
    exReset.targets = exLost.targets ∧ exReset.target ∈ exLost.targets :=
  have h := reset_behavior exEnv exLost 0 0 (by decide)
  ⟨h.1, h.2.1, h.2.2.1, h.2.2.2.1, h.2.2.2.2.1, h.2.2.2.2.2 (by decide)⟩

/-- Counterexample to claim C3 as stated: in the concrete lost game the
hint reveals sssss, but the post-loss reselection immediately moves the
session's target to uuuuu, so the hint does not reveal the word that is
the session's target from then on. -/
theorem lost_hint_counterexample :
    exLost.gameState = GameState.Lost ∧
    exLost.hint = Hint.lostRevealing wS ∧
    exLost.target ≠ wS := by decide

/-- Claim C3 as amended: the maxGuesses-th committed wrong guess moves the
phase to Lost and the hint reveals the target current at commit time (the
reselection effect still runs afterwards and may change the target). -/
theorem losing_commit (env : Env) (s : Session) (r1 r2 : Nat)
    (hp : s.gameState = GameState.Playing)
    (hmax : s.guesses.length + 1 = env.maxGuesses)
    (hlen : s.currentGuess.length = s.wordLength)
    (hdict : s.currentGuess ∈ env.dict)
    (hwrong : s.currentGuess ≠ s.target) :
    (step env s (Event.key Key.enter) r1 r2).gameState = GameState.Lost ∧
    (step env s (Event.key Key.enter) r1 r2).hint = Hint.lostRevealing s.target ∧
    (step env s (Event.key Key.enter) r1 r2).guesses = s.guesses ++ [s.currentGuess] := by
  have hm : s.guesses.length ≠ env.maxGuesses := by omega
  rw [step_key_enter, if_neg (not_ne_iff.mpr hp), if_neg hm,
    if_neg (not_ne_iff.mpr hlen), if_neg (not_not_intro hdict)]
  unfold commitStep
  refine ⟨?_, ?_, ?_⟩
  · rw [applySelector_gameState]
    show (if s.currentGuess = s.target then GameState.Won
      else if s.guesses.length + 1 = env.maxGuesses then GameState.Lost
      else GameState.Playing) = GameState.Lost
    rw [if_neg hwrong, if_pos hmax]
  · rw [applySelector_hint]
    show (if s.currentGuess = s.target then Hint.won
      else if s.guesses.length + 1 = env.maxGuesses then Hint.lostRevealing s.target
      else Hint.empty) = Hint.lostRevealing s.target
    rw [if_neg hwrong, if_pos hmax]
  · rw [applySelector_guesses]

/-- Witness for C3's amended theorem at the concrete losing commit. -/
theorem losing_commit_witness :
    exLost.gameState = GameState.Lost ∧
    exLost.hint = Hint.lostRevealing (runSteps exEnv exAfter1 (typeWord wT)).target ∧
    exLost.guesses = (runSteps exEnv exAfter1 (typeWord wT)).guesses ++ [wT] :=
  losing_commit exEnv (runSteps exEnv exAfter1 (typeWord wT)) 0 1
    (by decide) (by decide) (by decide) (by decide) (by decide)

/-- Counterexample to claim C4 as stated: in the concrete game the
winning commit itself still triggers the guesses-change effect, which
invokes the selector once more — observably, the pool shrinks from two
words to one at the winning commit. -/
theorem selector_after_win_counterexample :
    exWon.gameState = GameState.Won ∧
    exPreWin.targets = [wS, wU] ∧
    exWon.targets = [wS] := by decide

/-- Claim C4 as amended: a winning commit moves the phase to Won; the
guesses-change effect invokes the selector once more as part of that
commit, but the reselection provably keeps the target (the pool collapses
to copies of the winning word), and afterwards no event other than Enter
changes the session at all. -/
theorem winning_commit (env : Env) (s : Session) (r1 r2 : Nat)
    (hp : s.gameState = GameState.Playing)
    (hm : s.guesses.length ≠ env.maxGuesses)
    (hlenpool : ∀ t ∈ s.targets, t.length = s.wordLength)
    (hwin : s.currentGuess = s.target)
    (hlen : s.currentGuess.length = s.wordLength)
    (hdict : s.currentGuess ∈ env.dict) :
    (step env s (Event.key Key.enter) r1 r2).gameState = GameState.Won ∧
    (step env s (Event.key Key.enter) r1 r2).target = s.target ∧
    (∀ t ∈ (step env s (Event.key Key.enter) r1 r2).targets, t = s.target) ∧
    (∀ (e : Event) (r1' r2' : Nat), e ≠ Event.key Key.enter →
      step env (step env s (Event.key Key.enter) r1 r2) e r1' r2'
        = step env s (Event.key Key.enter) r1 r2) := by
  rw [step_key_enter, if_neg (not_ne_iff.mpr hp), if_neg hm,
    if_neg (not_ne_iff.mpr hlen), if_neg (not_not_intro hdict)]
  -- every candidate consistent with the winning guess is the target
  have hval : ∀ x ∈ s.targets,
      guessesAreValidFor (s.guesses ++ [s.currentGuess]) x s.target = true →
      x = s.target := by
    intro x hx hv
    have hone := guessesAreValidFor_iff.mp hv s.currentGuess
      (List.mem_append.mpr (Or.inr (List.mem_singleton_self _)))
    rw [hwin] at hone
    have hlx : x.length = s.target.length := by
      rw [hlenpool x hx, ← hlen, hwin]
    exact win_valid_eq hlx hone
  have hgstate : (commitStep env s r2).gameState = GameState.Won := by
    unfold commitStep
    rw [applySelector_gameState]
    show (if s.currentGuess = s.target then GameState.Won
      else if s.guesses.length + 1 = env.maxGuesses then GameState.Lost
      else GameState.Playing) = GameState.Won
    rw [if_pos hwin]
  have hguesses : (commitStep env s r2).guesses = s.guesses ++ [s.currentGuess] := by
    unfold commitStep
    rw [applySelector_guesses]
  have htargets : ∀ t ∈ (commitStep env s r2).targets, t = s.target := by
    unfold commitStep
    cases hf : findNewWorstTarget s.targets s.target (s.guesses ++ [s.currentGuess]) r2 with
    | none =>
      rw [applySelector_none_eq]
      intro t ht
      simp at ht
    | some p =>
      obtain ⟨nt, np⟩ := p
      rw [applySelector_some_eq]
      intro t ht
      obtain ⟨hmem, hnp⟩ := findNewWorstTarget_some hf
      rw [hnp] at ht
      have hprop := mem_allValidTargets.mp (leastHelpful_subset_valid t ht)
      exact hval t hprop.1 hprop.2
  have htarget : (commitStep env s r2).target = s.target := by
    unfold commitStep
    cases hf : findNewWorstTarget s.targets s.target (s.guesses ++ [s.currentGuess]) r2 with
    | none =>
      rw [applySelector_none_eq]
    | some p =>
      obtain ⟨nt, np⟩ := p
      rw [applySelector_some_eq]
      obtain ⟨hmem, hnp⟩ := findNewWorstTarget_some hf
      rw [hnp] at hmem
      have hprop := mem_allValidTargets.mp (leastHelpful_subset_valid nt hmem)
      exact hval nt hprop.1 hprop.2
  refine ⟨hgstate, htarget, htargets, ?_⟩
  intro e r1' r2' hne
  have hnotPlaying : ¬ (commitStep env s r2).gameState = GameState.Playing := by
    rw [hgstate]
    intro hcontra
    exact GameState.noConfusion hcontra
  have hglen : (commitStep env s r2).guesses.length > 0 := by
    rw [hguesses]
    simp
  cases e with
  | key k =>
    cases k with
    | enter => exact absurd rfl hne
    | letter c => rw [step_key_letter, if_pos hnotPlaying]
    | backspace => rw [step_key_backspace, if_pos hnotPlaying]
    | other => rw [step_key_other, if_pos hnotPlaying]
  | giveUp => rw [step_giveUp, if_pos (Or.inl hnotPlaying)]
  | setLen n => rw [step_setLen, if_pos (Or.inl hglen)]

/-- Witness for C4's amended theorem at the concrete winning commit. -/
theorem winning_commit_witness :
    exWon.gameState = GameState.Won ∧
    exWon.target = exPreWin.target ∧
    step exEnv exWon Event.giveUp 3 4 = exWon :=
  have h := winning_commit exEnv exPreWin 0 0 (by decide) (by decide) (by decide)
    (by decide) (by decide) (by decide)
  ⟨h.1, h.2.1, h.2.2.2 Event.giveUp 3 4 (by decide)⟩
